import Mathlib

/-!
# Image policy webhook (`labs/7_supply_chain/webhook-server/main.go`)

A shallow embedding of the `validate` HTTP handler and of the `ImageReview`
payload it decodes, mutates and encodes back, followed by the properties of
the verdict it writes.

Conventions of the embedding.

* Go `string` values that come out of `encoding/json` are valid UTF-8, so the
  fields are Lean `String`s; `strings.Contains` nevertheless compares *bytes*,
  and is embedded over the UTF-8 encoding of its arguments.
* The handler mutates one local `review` and appends to the process log; both
  are threaded explicitly through the two loops as a `Handler` value.
* `encoding/json` and `net/http` are library code: the decoder is a parameter
  of `validate`, the encoder is represented by the value it serialises, and
  `http.Error` by the status line, content type and body it is documented to
  write.  Log lines are recorded without the timestamp that `log` prepends.
* A `nil` and an empty `Containers` slice are both the empty list, and a failed
  write of the encoded response (line 70), which only adds a log line, is left
  out.
-/

namespace Webhook

/-! ## Data model (`main.go`, lines 15-27) -/

/-- One element of `spec.containers`: the anonymous struct `{ Image string }`. -/
structure Container where
  Image : String
deriving DecidableEq, Repr

/-- The anonymous struct behind `ImageReview.Spec`. -/
structure ReviewSpec where
  Containers : List Container
deriving DecidableEq, Repr

/-- The anonymous struct behind `ImageReview.Status`. -/
structure ReviewStatus where
  Allowed : Bool
  Reason : String
deriving DecidableEq, Repr

/-- The Go type `ImageReview`. -/
structure ImageReview where
  ApiVersion : String
  Kind : String
  Spec : ReviewSpec
  Status : ReviewStatus
deriving DecidableEq, Repr

/-- The field `reason` of the encoded status: the tag `json:"reason,omitempty"`
leaves the key out when the Go string is empty. -/
def ReviewStatus.reasonField (s : ReviewStatus) : Option String :=
  if s.Reason = "" then none else some s.Reason

/-! ## Library functions used by the handler -/

/-- The bytes of a Go string holding the text `s` (its UTF-8 encoding). -/
def goBytes (s : String) : List UInt8 :=
  s.data.flatMap String.utf8EncodeChar

/-- The UTF-8 encoding of a list of characters. -/
def encAll (l : List Char) : List UInt8 := l.flatMap String.utf8EncodeChar

/-- Does `sub` occur in `s` at some offset?  A left-to-right scan trying each
offset in turn. -/
def bytesContain : List UInt8 → List UInt8 → Bool
  | [], sub => sub.isPrefixOf []
  | b :: s, sub => sub.isPrefixOf (b :: s) || bytesContain s sub

/-- Go `strings.Contains(s, substr)`: reports whether `substr` is within `s`,
compared byte by byte. -/
def strings.Contains (s substr : String) : Bool :=
  bytesContain (goBytes s) (goBytes substr)

/-- The value of
`fmt.Sprintf("SECURITY: Image %s is forbidden (contains known vulnerabilities). Use a more recent version.", image)`. -/
def forbiddenReason (image : String) : String :=
  "SECURITY: Image " ++ image ++
    " is forbidden (contains known vulnerabilities). Use a more recent version."

/-! ## HTTP plumbing -/

/-- The parts of `*http.Request` the handler reads. -/
structure Request where
  RemoteAddr : String
  Body : List UInt8

/-- What has been written to the `http.ResponseWriter` body. -/
inductive Payload where
  | text (s : String)
  | json (review : ImageReview)
deriving DecidableEq, Repr

/-- The response as it stands when the handler returns. -/
structure Response where
  statusCode : Nat
  contentType : String
  body : Payload
deriving DecidableEq, Repr

/-- Go `http.Error(w, msg, code)`: a plain-text reply carrying `msg` and a
newline under status `code`. -/
def http.Error (msg : String) (code : Nat) : Response :=
  { statusCode := code, contentType := "text/plain; charset=utf-8", body := .text (msg ++ "\n") }

/-- The verdict carried by a response, when its body is an encoded review. -/
def Response.verdict (w : Response) : Option ReviewStatus :=
  match w.body with
  | .json review => some review.Status
  | .text _ => none

/-- The review carried by a response, when its body is an encoded review. -/
def Response.review (w : Response) : Option ImageReview :=
  match w.body with
  | .json review => some review
  | .text _ => none

/-! ## The handler (`main.go`, lines 29-73) -/

/-- The mutable state of one run of `validate`: the local `review` and the
lines logged so far. -/
structure Handler where
  review : ImageReview
  log : List String
deriving DecidableEq, Repr

/-- The inner loop, lines 51-58: `for _, blacklisted := range blacklistedImages`,
leaving at the first token contained in the image. -/
def blacklistLoop (container : Container) : List String → Handler → Handler
  | [], h => h
  | blacklisted :: rest, h =>
    if strings.Contains container.Image blacklisted then
      { review := { h.review with
          Status := { Allowed := false, Reason := forbiddenReason container.Image } },
        log := h.log ++ ["BLOCKED: " ++ container.Image] }
    else
      blacklistLoop container rest h

/-- The outer loop, lines 48-63: `for _, container := range review.Spec.Containers`,
leaving as soon as the verdict is a denial. -/
def containerLoop (blacklistedImages : List String) : List Container → Handler → Handler
  | [], h => h
  | container :: rest, h =>
    let h1 : Handler := { h with log := h.log ++ ["Checking image: " ++ container.Image] }
    let h2 := blacklistLoop container blacklistedImages h1
    if !h2.review.Status.Allowed then h2
    else containerLoop blacklistedImages rest h2

/-- The handler `validate`.  `jsonDecode` stands for
`json.NewDecoder(r.Body).Decode(&review)`; the result is the response written
and the lines logged. -/
def validate (jsonDecode : List UInt8 → Except String ImageReview) (r : Request) :
    Response × List String :=
  let log0 := ["Received image policy webhook request from " ++ r.RemoteAddr]
  match jsonDecode r.Body with
  | .error err =>
    (http.Error "Invalid request" 400, log0 ++ ["Error decoding request: " ++ err])
  | .ok review =>
    let blacklistedImages := ["nginx:1.19", "nginx:1.18", "ubuntu:18.04"]
    let h0 : Handler :=
      { review := { review with Status := { review.Status with Allowed := true } }, log := log0 }
    let h1 := containerLoop blacklistedImages review.Spec.Containers h0
    let h2 : Handler :=
      if h1.review.Status.Allowed then
        { h1 with log := h1.log ++ ["ALLOWED: All images passed security check"] }
      else h1
    ({ statusCode := 200, contentType := "application/json", body := .json h2.review }, h2.log)

/-! ## Sample inputs -/

/-- A review with the given container images and an empty incoming status. -/
def reviewOf (images : List String) : ImageReview :=
  { ApiVersion := "imagepolicy.k8s.io/v1alpha1", Kind := "ImageReview",
    Spec := { Containers := images.map Container.mk },
    Status := { Allowed := false, Reason := "" } }

/-- A decoder that accepts every body as the encoding of `review`. -/
def decodeAs (review : ImageReview) : List UInt8 → Except String ImageReview :=
  fun _ => .ok review

/-- A decoder that rejects every body. -/
def decodeFail : List UInt8 → Except String ImageReview :=
  fun _ => .error "unexpected end of JSON input"

/-- A request from a fixed peer with an arbitrary body. -/
def sampleRequest : Request :=
  { RemoteAddr := "10.0.0.1:40000", Body := [] }

/-! ## Vocabulary of the statements

These definitions are not part of the program: they name what the statements
below talk about.
-/

/-- The image reference `image` contains, as a substring, one of the three
tokens of the blacklist. -/
def Blacklisted (image : String) : Prop :=
  ∃ t ∈ ["nginx:1.19", "nginx:1.18", "ubuntu:18.04"], ∃ p q : String, image = p ++ t ++ q

/-- Does the image of `c` contain one of `tokens`?  The test the inner loop
performs on one container. -/
def hit (tokens : List String) (c : Container) : Bool :=
  tokens.any fun t => strings.Contains c.Image t

/-- The review after a denial citing `c`. -/
def denied (review : ImageReview) (c : Container) : ImageReview :=
  { review with Status := { Allowed := false, Reason := forbiddenReason c.Image } }

/-- The review encoded by `validate` once decoding has produced `review`. -/
def verdictReview (review : ImageReview) : ImageReview :=
  match review.Spec.Containers.find? (hit ["nginx:1.19", "nginx:1.18", "ubuntu:18.04"]) with
  | some c => denied review c
  | none => { review with Status := { review.Status with Allowed := true } }

/-- A decoder for the sample requests: a one-byte body selects a review from
`table`, every other body is rejected. -/
def decodeTable (table : List ImageReview) : List UInt8 → Except String ImageReview
  | [i] =>
    match table.get? i.toNat with
    | some review => .ok review
    | none => .error "unexpected end of JSON input"
  | _ => .error "unexpected end of JSON input"

/-- The sample request whose body is the single byte `i`. -/
def requestNo (i : UInt8) : Request :=
  { RemoteAddr := "10.0.0.1:40000", Body := [i] }

/-- A review with the given container images whose incoming status is already
filled in. -/
def reviewWithStatus (images : List String) (allowed : Bool) (reason : String) : ImageReview :=
  { ApiVersion := "imagepolicy.k8s.io/v1alpha1", Kind := "ImageReview",
    Spec := { Containers := images.map Container.mk },
    Status := { Allowed := allowed, Reason := reason } }

/-! ## Byte-level containment -/

theorem bytesContain_iff (s sub : List UInt8) :
    bytesContain s sub = true ↔ sub <:+: s := by
  induction s with
  | nil => simp [bytesContain, List.isPrefixOf_iff_prefix]
  | cons b s ih =>
    simp only [bytesContain, Bool.or_eq_true, ih, List.isPrefixOf_iff_prefix]
    exact List.infix_cons_iff.symm

theorem goBytes_append (a b : String) : goBytes (a ++ b) = goBytes a ++ goBytes b := by
  simp [goBytes, String.data_append]

theorem contains_of_concat (p t q : String) : strings.Contains (p ++ t ++ q) t = true := by
  rw [strings.Contains, bytesContain_iff, goBytes_append, goBytes_append]
  exact ⟨goBytes p, goBytes q, rfl⟩

/-! ## Bytes and characters

The blacklist tokens are ASCII.  A byte below 128 occurs in a UTF-8 text only
as the encoding of an ASCII character, so an ASCII token occurs among the bytes
of a text exactly when it occurs among its characters.
-/

set_option maxRecDepth 100000 in
theorem lead_or : ∀ f : Fin 256,
    (128:UInt8) ≤ (⟨⟨f⟩⟩ : UInt8) ||| 0x80 ∧ (128:UInt8) ≤ (⟨⟨f⟩⟩ : UInt8) ||| 0xc0 ∧
    (128:UInt8) ≤ (⟨⟨f⟩⟩ : UInt8) ||| 0xe0 ∧ (128:UInt8) ≤ (⟨⟨f⟩⟩ : UInt8) ||| 0xf0 := by
  decide

theorem high_or (y : UInt8) :
    (128:UInt8) ≤ y ||| 0x80 ∧ (128:UInt8) ≤ y ||| 0xc0 ∧
    (128:UInt8) ≤ y ||| 0xe0 ∧ (128:UInt8) ≤ y ||| 0xf0 := by
  rcases y with ⟨⟨f⟩⟩
  exact lead_or f

theorem byte_clash (b : UInt8) (h1 : (128 : UInt8) ≤ b) (h2 : b < 128) : False :=
  absurd (show b.toNat < 128 from h2) (Nat.not_lt.mpr (show 128 ≤ b.toNat from h1))

theorem toUInt8_lt (v : UInt32) (h : v ≤ 0x7f) : v.toUInt8 < 128 := by
  have h' : v.toNat ≤ 127 := h
  show (v.toUInt8).toNat < 128
  simp [UInt32.toUInt8, Nat.toUInt8, UInt8.ofNat, UInt8.toNat]
  omega

theorem toUInt8_inj (v w : UInt32) (hv : v ≤ 0x7f) (hw : w ≤ 0x7f)
    (h : v.toUInt8 = w.toUInt8) : v = w := by
  have hv' : v.toNat ≤ 127 := hv
  have hw' : w.toNat ≤ 127 := hw
  have h2 : (v.toUInt8).toNat = (w.toUInt8).toNat := by rw [h]
  simp [UInt32.toUInt8, Nat.toUInt8, UInt8.ofNat, UInt8.toNat] at h2
  have h3 : v.toNat = w.toNat := by omega
  cases v; cases w
  simp only [UInt32.toNat] at h3
  rw [BitVec.eq_of_toNat_eq h3]

theorem enc_ascii (c : Char) (h : c.val ≤ 0x7f) :
    String.utf8EncodeChar c = [c.val.toUInt8] := by
  simp [String.utf8EncodeChar, h]

theorem enc_high (c : Char) (h : ¬ c.val ≤ 0x7f) :
    ∀ b ∈ String.utf8EncodeChar c, (128 : UInt8) ≤ b := by
  intro b hb
  unfold String.utf8EncodeChar at hb
  simp only [h, if_false] at hb
  split at hb
  · simp only [List.mem_cons, List.mem_singleton, List.not_mem_nil, or_false] at hb
    rcases hb with rfl | rfl
    · exact (high_or _).2.1
    · exact (high_or _).1
  · split at hb
    · simp only [List.mem_cons, List.mem_singleton, List.not_mem_nil, or_false] at hb
      rcases hb with rfl | rfl | rfl
      · exact (high_or _).2.2.1
      · exact (high_or _).1
      · exact (high_or _).1
    · simp only [List.mem_cons, List.mem_singleton, List.not_mem_nil, or_false] at hb
      rcases hb with rfl | rfl | rfl | rfl
      · exact (high_or _).2.2.2
      · exact (high_or _).1
      · exact (high_or _).1
      · exact (high_or _).1

theorem enc_ne_nil (c : Char) : String.utf8EncodeChar c ≠ [] := by
  intro h
  have := String.length_utf8EncodeChar c
  rw [h] at this
  have := Char.utf8Size_pos c
  simp at *
  omega

theorem ascii_prefix (T : List Char) (hT : ∀ c ∈ T, c.val ≤ 0x7f) :
    ∀ s : List Char, encAll T <+: encAll s → T <+: s := by
  induction T with
  | nil => intro s _; exact List.nil_prefix
  | cons c T ih =>
    intro s hp
    have hc : c.val ≤ 0x7f := hT c (List.mem_cons_self _ _)
    cases s with
    | nil =>
      simp [encAll, List.flatMap_cons, enc_ascii c hc] at hp
    | cons d s =>
      simp only [encAll, List.flatMap_cons, enc_ascii c hc] at hp
      by_cases hd : d.val ≤ 0x7f
      · simp only [enc_ascii d hd, List.singleton_append, List.cons_prefix_cons] at hp
        have hcd : c = d := Char.eq_of_val_eq (toUInt8_inj _ _ hc hd hp.1)
        subst hcd
        exact List.cons_prefix_cons.mpr
          ⟨rfl, ih (fun x hx => hT x (List.mem_cons_of_mem _ hx)) s hp.2⟩
      · exfalso
        have hne := enc_ne_nil d
        cases he : String.utf8EncodeChar d with
        | nil => exact hne he
        | cons b bs =>
          rw [he] at hp
          simp only [List.singleton_append, List.cons_append, List.cons_prefix_cons] at hp
          have hb : (128 : UInt8) ≤ b := enc_high d hd b (by rw [he]; exact List.mem_cons_self _ _)
          have hlt := toUInt8_lt c.val hc
          rw [hp.1] at hlt
          exact byte_clash _ hb hlt

theorem skip_high (L : List UInt8) (x : UInt8) (hx : L.head? = some x) (hlt : x < 128)
    (X Y : List UInt8) (hX : ∀ b ∈ X, (128 : UInt8) ≤ b) (h : L <:+: X ++ Y) : L <:+: Y := by
  induction X with
  | nil => simpa using h
  | cons b X ih =>
    rw [List.cons_append, List.infix_cons_iff] at h
    rcases h with h | h
    · exfalso
      cases L with
      | nil => simp at hx
      | cons a L =>
        simp only [List.head?_cons, Option.some.injEq] at hx
        rw [List.cons_prefix_cons] at h
        have hb := hX b (List.mem_cons_self _ _)
        rw [← h.1, hx] at hb
        exact byte_clash _ hb hlt
    · exact ih (fun y hy => hX y (List.mem_cons_of_mem _ hy)) h

theorem ascii_infix (T : List Char) (hT : ∀ c ∈ T, c.val ≤ 0x7f) :
    ∀ s : List Char, encAll T <:+: encAll s → T <:+: s := by
  cases T with
  | nil => intro s _; exact List.nil_infix
  | cons c T =>
    have hc : c.val ≤ 0x7f := hT c (List.mem_cons_self _ _)
    intro s
    induction s with
    | nil =>
      intro h
      simp [encAll, List.flatMap_cons, enc_ascii c hc] at h
    | cons d s ih =>
      intro h
      by_cases hd : d.val ≤ 0x7f
      · have h' := h
        simp only [encAll, List.flatMap_cons, enc_ascii d hd, List.singleton_append] at h'
        rw [List.infix_cons_iff] at h'
        rcases h' with hp | hi
        · apply List.IsPrefix.isInfix
          apply ascii_prefix _ hT
          simpa only [encAll, List.flatMap_cons, enc_ascii d hd, List.singleton_append] using hp
        · exact List.infix_cons (ih hi)
      · apply List.infix_cons
        apply ih
        have h' := h
        simp only [encAll, List.flatMap_cons] at h' ⊢
        refine skip_high _ c.val.toUInt8 ?_ (toUInt8_lt _ hc) _ _ (enc_high d hd) h'
        simp [enc_ascii c hc]

theorem goBytes_eq (s : String) : goBytes s = encAll s.data := rfl

theorem contains_iff_of_ascii (s t : String) (ht : ∀ c ∈ t.data, c.val ≤ 0x7f) :
    strings.Contains s t = true ↔ ∃ p q : String, s = p ++ t ++ q := by
  constructor
  · intro h
    rw [strings.Contains, bytesContain_iff, goBytes_eq, goBytes_eq] at h
    obtain ⟨l1, l2, h12⟩ := ascii_infix t.data ht s.data h
    refine ⟨⟨l1⟩, ⟨l2⟩, ?_⟩
    apply String.ext
    simp [String.data_append, h12]
  · rintro ⟨p, q, rfl⟩
    exact contains_of_concat p t q

/-! ## What the two loops compute -/

theorem blacklistLoop_review (c : Container) (tokens : List String) (h : Handler) :
    (blacklistLoop c tokens h).review = if hit tokens c then denied h.review c else h.review := by
  induction tokens with
  | nil => simp [blacklistLoop, hit]
  | cons t ts ih =>
    by_cases ht : strings.Contains c.Image t = true
    · simp [blacklistLoop, hit, ht, denied]
    · simp only [hit] at ih
      simp [blacklistLoop, hit, ht, ih]

theorem containerLoop_review (tokens : List String) (cs : List Container) (h : Handler)
    (hA : h.review.Status.Allowed = true) :
    (containerLoop tokens cs h).review =
      match cs.find? (hit tokens) with
      | some c => denied h.review c
      | none => h.review := by
  induction cs generalizing h with
  | nil => simp [containerLoop]
  | cons c cs ih =>
    by_cases hc : hit tokens c = true
    · simp [containerLoop, blacklistLoop_review, hc, denied]
    · simp only [Bool.not_eq_true] at hc
      have h2 : (blacklistLoop c tokens
          { h with log := h.log ++ ["Checking image: " ++ c.Image] }).review = h.review := by
        simp [blacklistLoop_review, hc]
      simp only [containerLoop, h2, hA, List.find?_cons, hc]
      have key := ih (blacklistLoop c tokens
          { h with log := h.log ++ ["Checking image: " ++ c.Image] }) (by rw [h2]; exact hA)
      rw [h2] at key
      exact key

theorem validate_ok (jsonDecode : List UInt8 → Except String ImageReview) (r : Request)
    (review : ImageReview) (hd : jsonDecode r.Body = .ok review) :
    (validate jsonDecode r).1 =
      { statusCode := 200, contentType := "application/json",
        body := .json (verdictReview review) } := by
  have hlog : ∀ (h1 : Handler) (l : List String),
      (if h1.review.Status.Allowed = true then { h1 with log := l } else h1).review
        = h1.review := by
    intro h1 l
    split <;> rfl
  simp only [validate, hd, verdictReview, hlog]
  rw [containerLoop_review _ _ _ rfl]
  cases hf : review.Spec.Containers.find? (hit ["nginx:1.19", "nginx:1.18", "ubuntu:18.04"]) <;>
    simp [denied]

theorem tokens_ascii :
    ∀ t ∈ ["nginx:1.19", "nginx:1.18", "ubuntu:18.04"], ∀ c ∈ t.data, c.val ≤ 0x7f := by
  decide

theorem hit_iff (c : Container) :
    hit ["nginx:1.19", "nginx:1.18", "ubuntu:18.04"] c = true ↔ Blacklisted c.Image := by
  simp only [hit, List.any_eq_true, Blacklisted]
  constructor
  · rintro ⟨t, ht, hc⟩
    exact ⟨t, ht, (contains_iff_of_ascii _ t (tokens_ascii t ht)).mp hc⟩
  · rintro ⟨t, ht, hc⟩
    exact ⟨t, ht, (contains_iff_of_ascii _ t (tokens_ascii t ht)).mpr hc⟩

theorem verdictReview_allowed (review : ImageReview) :
    (verdictReview review).Status.Allowed = false ↔
      ∃ c ∈ review.Spec.Containers, Blacklisted c.Image := by
  unfold verdictReview
  cases hf : review.Spec.Containers.find? (hit ["nginx:1.19", "nginx:1.18", "ubuntu:18.04"]) with
  | none =>
    simp only [Bool.true_eq_false, false_iff, not_exists, not_and]
    intro c hc hb
    rw [List.find?_eq_none] at hf
    exact hf c hc ((hit_iff c).mpr hb)
  | some c =>
    simp only [denied, true_iff]
    exact ⟨c, List.mem_of_find?_eq_some hf, (hit_iff c).mp (List.find?_some hf)⟩

theorem verdict_ok (jsonDecode : List UInt8 → Except String ImageReview) (r : Request)
    (review : ImageReview) (hd : jsonDecode r.Body = .ok review) :
    (validate jsonDecode r).1.verdict = some (verdictReview review).Status := by
  rw [validate_ok jsonDecode r review hd]
  rfl

theorem verdictReview_first (review : ImageReview) (pre post : List Container) (c : Container)
    (hs : review.Spec.Containers = pre ++ c :: post)
    (hpre : ∀ x ∈ pre, ¬ Blacklisted x.Image) (hc : Blacklisted c.Image) :
    verdictReview review = denied review c := by
  have hf : review.Spec.Containers.find? (hit ["nginx:1.19", "nginx:1.18", "ubuntu:18.04"])
      = some c := by
    rw [List.find?_eq_some]
    refine ⟨(hit_iff c).mpr hc, pre, post, hs, ?_⟩
    intro a ha
    cases hh : hit ["nginx:1.19", "nginx:1.18", "ubuntu:18.04"] a with
    | false => rfl
    | true => exact absurd ((hit_iff a).mp hh) (hpre a ha)
  simp only [verdictReview, hf]

theorem first_blacklisted (cs : List Container) (h : ∃ c ∈ cs, Blacklisted c.Image) :
    ∃ pre c post, cs = pre ++ c :: post ∧ (∀ x ∈ pre, ¬ Blacklisted x.Image) ∧
      Blacklisted c.Image := by
  obtain ⟨c0, hc0, hb0⟩ := h
  cases hf : cs.find? (hit ["nginx:1.19", "nginx:1.18", "ubuntu:18.04"]) with
  | none =>
    rw [List.find?_eq_none] at hf
    exact absurd ((hit_iff c0).mpr hb0) (hf c0 hc0)
  | some c =>
    rw [List.find?_eq_some] at hf
    obtain ⟨hc, pre, post, hs, hpre⟩ := hf
    refine ⟨pre, c, post, hs, ?_, (hit_iff c).mp hc⟩
    intro x hx hb
    have := hpre x hx
    rw [(hit_iff x).mpr hb] at this
    exact absurd this (by decide)

theorem forbiddenReason_ne_empty (image : String) : forbiddenReason image ≠ "" := by
  intro h
  have hl := congrArg String.length h
  simp only [forbiddenReason, String.length_append] at hl
  have h16 : "SECURITY: Image ".length = 16 := by decide
  have h0 : ("" : String).length = 0 := rfl
  omega

theorem verdictReview_frame (review : ImageReview) :
    (verdictReview review).ApiVersion = review.ApiVersion ∧
      (verdictReview review).Kind = review.Kind ∧
      (verdictReview review).Spec = review.Spec := by
  unfold verdictReview
  split <;> simp [denied]

theorem bool_eq_of_false_iff {a b : Bool} (h : a = false ↔ b = false) : a = b := by
  cases a <;> cases b <;> simp at h ⊢

theorem verdictReview_allowed_congr (review1 review2 : ImageReview)
    (h : ∀ c, c ∈ review1.Spec.Containers ↔ c ∈ review2.Spec.Containers) :
    (verdictReview review1).Status.Allowed = (verdictReview review2).Status.Allowed := by
  apply bool_eq_of_false_iff
  rw [verdictReview_allowed, verdictReview_allowed]
  constructor
  · rintro ⟨c, hc, hb⟩
    exact ⟨c, (h c).mp hc, hb⟩
  · rintro ⟨c, hc, hb⟩
    exact ⟨c, (h c).mpr hc, hb⟩

theorem hit_empty (c : Container) (h : c.Image = "") :
    hit ["nginx:1.19", "nginx:1.18", "ubuntu:18.04"] c = false := by
  rcases c with ⟨img⟩
  simp only at h
  subst h
  decide

theorem find_hit_filter (cs : List Container) :
    (cs.filter fun c => c.Image != "").find? (hit ["nginx:1.19", "nginx:1.18", "ubuntu:18.04"])
      = cs.find? (hit ["nginx:1.19", "nginx:1.18", "ubuntu:18.04"]) := by
  induction cs with
  | nil => rfl
  | cons c cs ih =>
    by_cases hc : c.Image = ""
    · rw [List.filter_cons_of_neg (by simp [hc]), List.find?_cons, hit_empty c hc, ih]
    · rw [List.filter_cons_of_pos (by simp [hc]), List.find?_cons, List.find?_cons, ih]

theorem verdictReview_status (review : ImageReview) :
    (verdictReview review).Status =
      match review.Spec.Containers.find? (hit ["nginx:1.19", "nginx:1.18", "ubuntu:18.04"]) with
      | some c => { Allowed := false, Reason := forbiddenReason c.Image }
      | none => { Allowed := true, Reason := review.Status.Reason } := by
  unfold verdictReview
  split <;> simp_all [denied]

/-! ## Properties of the verdict -/

/-- C1: once the request is decoded, the verdict written by `validate` has
`allowed = false` exactly when some container image contains one of the tokens
"nginx:1.19", "nginx:1.18", "ubuntu:18.04" as a substring, and `allowed = true`
otherwise. -/
theorem validate_denies_iff_blacklisted (jsonDecode : List UInt8 → Except String ImageReview)
    (r : Request) (review : ImageReview) (hd : jsonDecode r.Body = .ok review) :
    ∃ v, (validate jsonDecode r).1.verdict = some v ∧
      (v.Allowed = false ↔ ∃ c ∈ review.Spec.Containers, Blacklisted c.Image) ∧
      (v.Allowed = true ↔ ¬ ∃ c ∈ review.Spec.Containers, Blacklisted c.Image) := by
  refine ⟨_, verdict_ok jsonDecode r review hd, verdictReview_allowed review, ?_⟩
  rw [← verdictReview_allowed review]
  simp

/-- C1, on the containers "nginx:1.20" and "redis:6": the request is allowed. -/
theorem validate_denies_iff_blacklisted_witness :
    decodeAs (reviewOf ["nginx:1.20", "redis:6"]) sampleRequest.Body
        = .ok (reviewOf ["nginx:1.20", "redis:6"]) ∧
      (validate (decodeAs (reviewOf ["nginx:1.20", "redis:6"])) sampleRequest).1.verdict
        = some { Allowed := true, Reason := "" } ∧
      ∃ v, (validate (decodeAs (reviewOf ["nginx:1.20", "redis:6"])) sampleRequest).1.verdict
          = some v ∧
        (v.Allowed = false ↔
          ∃ c ∈ (reviewOf ["nginx:1.20", "redis:6"]).Spec.Containers, Blacklisted c.Image) ∧
        (v.Allowed = true ↔
          ¬ ∃ c ∈ (reviewOf ["nginx:1.20", "redis:6"]).Spec.Containers, Blacklisted c.Image) :=
  ⟨rfl, by decide,
    validate_denies_iff_blacklisted (decodeAs (reviewOf ["nginx:1.20", "redis:6"]))
      sampleRequest (reviewOf ["nginx:1.20", "redis:6"]) rfl⟩

/-- C2, at a request that already carries `status.reason`: no container is
blacklisted, the verdict encoded is `allowed = true`, and the `reason` key is
nevertheless present, holding the text the caller sent. -/
theorem validate_keeps_incoming_reason :
    (validate (decodeAs (reviewWithStatus ["nginx:1.20"] false "stale")) sampleRequest).1.verdict
        = some { Allowed := true, Reason := "stale" } ∧
      ReviewStatus.reasonField { Allowed := true, Reason := "stale" } = some "stale" := by
  decide

/-- C3: when some container image contains a blacklist token, the verdict is
a denial whose reason is non-empty and is exactly the message built from the
image of the first such container in the order of the request; the reason
contains that image, and no other first-match decomposition of the list gives
a different reason. -/
theorem validate_cites_first_match (jsonDecode : List UInt8 → Except String ImageReview)
    (r : Request) (review : ImageReview) (hd : jsonDecode r.Body = .ok review)
    (hm : ∃ c ∈ review.Spec.Containers, Blacklisted c.Image) :
    ∃ v, (validate jsonDecode r).1.verdict = some v ∧ v.Allowed = false ∧ v.Reason ≠ "" ∧
      (∃ pre c post, review.Spec.Containers = pre ++ c :: post ∧
        (∀ x ∈ pre, ¬ Blacklisted x.Image) ∧ Blacklisted c.Image ∧
        v.Reason = "SECURITY: Image " ++ c.Image ++
          " is forbidden (contains known vulnerabilities). Use a more recent version." ∧
        ∃ a b : String, v.Reason = a ++ c.Image ++ b) ∧
      (∀ pre c post, review.Spec.Containers = pre ++ c :: post →
        (∀ x ∈ pre, ¬ Blacklisted x.Image) → Blacklisted c.Image →
        v.Reason = "SECURITY: Image " ++ c.Image ++
          " is forbidden (contains known vulnerabilities). Use a more recent version.") := by
  obtain ⟨pre, c, post, hs, hpre, hc⟩ := first_blacklisted review.Spec.Containers hm
  refine ⟨_, verdict_ok jsonDecode r review hd, ?_, ?_, ?_, ?_⟩
  · rw [verdictReview_first review pre post c hs hpre hc]
    rfl
  · rw [verdictReview_first review pre post c hs hpre hc]
    exact forbiddenReason_ne_empty c.Image
  · refine ⟨pre, c, post, hs, hpre, hc, ?_, ?_⟩
    · rw [verdictReview_first review pre post c hs hpre hc]
      rfl
    · rw [verdictReview_first review pre post c hs hpre hc]
      exact ⟨"SECURITY: Image ",
        " is forbidden (contains known vulnerabilities). Use a more recent version.", rfl⟩
  · intro pre2 c2 post2 hs2 hpre2 hc2
    rw [verdictReview_first review pre2 post2 c2 hs2 hpre2 hc2]
    rfl

/-- C3, on the containers "app:latest" and "nginx:1.18": the reason cites
"nginx:1.18". -/
theorem validate_cites_first_match_witness :
    decodeAs (reviewOf ["app:latest", "nginx:1.18"]) sampleRequest.Body
        = .ok (reviewOf ["app:latest", "nginx:1.18"]) ∧
      (∃ c ∈ (reviewOf ["app:latest", "nginx:1.18"]).Spec.Containers, Blacklisted c.Image) ∧
      (validate (decodeAs (reviewOf ["app:latest", "nginx:1.18"])) sampleRequest).1.verdict
        = some { Allowed := false, Reason := "SECURITY: Image nginx:1.18 is forbidden (contains known vulnerabilities). Use a more recent version." } ∧
      ∃ v, (validate (decodeAs (reviewOf ["app:latest", "nginx:1.18"])) sampleRequest).1.verdict
          = some v ∧ v.Allowed = false ∧ v.Reason ≠ "" ∧
        (∃ pre c post, (reviewOf ["app:latest", "nginx:1.18"]).Spec.Containers
            = pre ++ c :: post ∧
          (∀ x ∈ pre, ¬ Blacklisted x.Image) ∧ Blacklisted c.Image ∧
          v.Reason = "SECURITY: Image " ++ c.Image ++
            " is forbidden (contains known vulnerabilities). Use a more recent version." ∧
          ∃ a b : String, v.Reason = a ++ c.Image ++ b) ∧
        (∀ pre c post, (reviewOf ["app:latest", "nginx:1.18"]).Spec.Containers
            = pre ++ c :: post →
          (∀ x ∈ pre, ¬ Blacklisted x.Image) → Blacklisted c.Image →
          v.Reason = "SECURITY: Image " ++ c.Image ++
            " is forbidden (contains known vulnerabilities). Use a more recent version.") :=
  have hm : ∃ c ∈ (reviewOf ["app:latest", "nginx:1.18"]).Spec.Containers,
      Blacklisted c.Image :=
    ⟨⟨"nginx:1.18"⟩, by decide, "nginx:1.18", by decide, "", "", by decide⟩
  ⟨rfl, hm, by decide,
    validate_cites_first_match (decodeAs (reviewOf ["app:latest", "nginx:1.18"]))
      sampleRequest (reviewOf ["app:latest", "nginx:1.18"]) rfl hm⟩

/-- C4: once the request is decoded, the review written back has the
`apiVersion`, the `kind` and the `spec` (hence `spec.containers`) of the
decoded request; only `status` can differ. -/
theorem validate_echoes_envelope (jsonDecode : List UInt8 → Except String ImageReview)
    (r : Request) (review : ImageReview) (hd : jsonDecode r.Body = .ok review) :
    ∃ out, (validate jsonDecode r).1.review = some out ∧
      out.ApiVersion = review.ApiVersion ∧ out.Kind = review.Kind ∧
      out.Spec.Containers = review.Spec.Containers ∧
      out = { review with Status := out.Status } := by
  refine ⟨verdictReview review, ?_, ?_⟩
  · rw [validate_ok jsonDecode r review hd]
    rfl
  · obtain ⟨h1, h2, h3⟩ := verdictReview_frame review
    refine ⟨h1, h2, by rw [h3], ?_⟩
    rw [← h1, ← h2, ← h3]

/-- C4, on a sample request that is denied. -/
theorem validate_echoes_envelope_witness :
    decodeAs (reviewOf ["app:latest", "nginx:1.18"]) sampleRequest.Body
        = .ok (reviewOf ["app:latest", "nginx:1.18"]) ∧
      ∃ out, (validate (decodeAs (reviewOf ["app:latest", "nginx:1.18"])) sampleRequest).1.review
          = some out ∧
        out.ApiVersion = (reviewOf ["app:latest", "nginx:1.18"]).ApiVersion ∧
        out.Kind = (reviewOf ["app:latest", "nginx:1.18"]).Kind ∧
        out.Spec.Containers = (reviewOf ["app:latest", "nginx:1.18"]).Spec.Containers ∧
        out = { reviewOf ["app:latest", "nginx:1.18"] with Status := out.Status } :=
  ⟨rfl, validate_echoes_envelope (decodeAs (reviewOf ["app:latest", "nginx:1.18"]))
    sampleRequest (reviewOf ["app:latest", "nginx:1.18"]) rfl⟩

/-- C5, at a request with no container that already carries `status.reason`:
the verdict encoded is `allowed = true`, and the `reason` key is present,
holding the text the caller sent. -/
theorem validate_empty_keeps_incoming_reason :
    (reviewWithStatus [] false "stale").Spec.Containers = [] ∧
      (validate (decodeAs (reviewWithStatus [] false "stale")) sampleRequest).1.verdict
        = some { Allowed := true, Reason := "stale" } ∧
      ReviewStatus.reasonField { Allowed := true, Reason := "stale" } ≠ none := by
  decide

/-- C6: matching is unanchored containment.  For a blacklist token `T` and any
strings `p` and `s`, a decoded request with a container whose image is
`p ++ T ++ s` is denied; `strings.Contains` holds of that image and `T`. -/
theorem validate_denies_embedded_token (jsonDecode : List UInt8 → Except String ImageReview)
    (r : Request) (review : ImageReview) (hd : jsonDecode r.Body = .ok review)
    (T : String) (hT : T ∈ ["nginx:1.19", "nginx:1.18", "ubuntu:18.04"]) (p s : String)
    (c : Container) (hc : c ∈ review.Spec.Containers) (himg : c.Image = p ++ T ++ s) :
    strings.Contains c.Image T = true ∧
      ∃ v, (validate jsonDecode r).1.verdict = some v ∧ v.Allowed = false := by
  refine ⟨by rw [himg]; exact contains_of_concat p T s, _,
    verdict_ok jsonDecode r review hd, ?_⟩
  exact (verdictReview_allowed review).mpr ⟨c, hc, T, hT, p, s, himg⟩

/-- C6, on the image "registry.io/nginx:1.19-alpine" and the token
"nginx:1.19". -/
theorem validate_denies_embedded_token_witness :
    decodeAs (reviewOf ["registry.io/nginx:1.19-alpine"]) sampleRequest.Body
        = .ok (reviewOf ["registry.io/nginx:1.19-alpine"]) ∧
      "nginx:1.19" ∈ ["nginx:1.19", "nginx:1.18", "ubuntu:18.04"] ∧
      (⟨"registry.io/nginx:1.19-alpine"⟩ : Container)
        ∈ (reviewOf ["registry.io/nginx:1.19-alpine"]).Spec.Containers ∧
      "registry.io/nginx:1.19-alpine" = "registry.io/" ++ "nginx:1.19" ++ "-alpine" ∧
      strings.Contains "registry.io/nginx:1.19-alpine" "nginx:1.19" = true ∧
      ∃ v, (validate (decodeAs (reviewOf ["registry.io/nginx:1.19-alpine"]))
          sampleRequest).1.verdict = some v ∧ v.Allowed = false :=
  ⟨rfl, by decide, by decide, by decide,
    validate_denies_embedded_token (decodeAs (reviewOf ["registry.io/nginx:1.19-alpine"]))
      sampleRequest (reviewOf ["registry.io/nginx:1.19-alpine"]) rfl
      "nginx:1.19" (by decide) "registry.io/" "-alpine"
      ⟨"registry.io/nginx:1.19-alpine"⟩ (by decide) (by decide)⟩

/-- C7: two decoded requests whose container lists are permutations of each
other receive the same value of `allowed`. -/
theorem validate_allowed_perm (jsonDecode : List UInt8 → Except String ImageReview)
    (r1 r2 : Request) (review1 review2 : ImageReview)
    (hd1 : jsonDecode r1.Body = .ok review1) (hd2 : jsonDecode r2.Body = .ok review2)
    (hperm : review1.Spec.Containers.Perm review2.Spec.Containers) :
    ∃ v1 v2, (validate jsonDecode r1).1.verdict = some v1 ∧
      (validate jsonDecode r2).1.verdict = some v2 ∧ v1.Allowed = v2.Allowed :=
  ⟨_, _, verdict_ok jsonDecode r1 review1 hd1, verdict_ok jsonDecode r2 review2 hd2,
    verdictReview_allowed_congr review1 review2 fun _ => hperm.mem_iff⟩

/-- C7, on the containers "app:latest", "nginx:1.18" and their reversal. -/
theorem validate_allowed_perm_witness :
    decodeTable [reviewOf ["app:latest", "nginx:1.18"], reviewOf ["nginx:1.18", "app:latest"]]
        (requestNo 0).Body = .ok (reviewOf ["app:latest", "nginx:1.18"]) ∧
      decodeTable [reviewOf ["app:latest", "nginx:1.18"], reviewOf ["nginx:1.18", "app:latest"]]
        (requestNo 1).Body = .ok (reviewOf ["nginx:1.18", "app:latest"]) ∧
      (reviewOf ["app:latest", "nginx:1.18"]).Spec.Containers.Perm
        (reviewOf ["nginx:1.18", "app:latest"]).Spec.Containers ∧
      ∃ v1 v2,
        (validate (decodeTable
          [reviewOf ["app:latest", "nginx:1.18"], reviewOf ["nginx:1.18", "app:latest"]])
          (requestNo 0)).1.verdict = some v1 ∧
        (validate (decodeTable
          [reviewOf ["app:latest", "nginx:1.18"], reviewOf ["nginx:1.18", "app:latest"]])
          (requestNo 1)).1.verdict = some v2 ∧ v1.Allowed = v2.Allowed :=
  ⟨rfl, rfl, List.Perm.swap _ _ _,
    validate_allowed_perm
      (decodeTable [reviewOf ["app:latest", "nginx:1.18"], reviewOf ["nginx:1.18", "app:latest"]])
      (requestNo 0) (requestNo 1) _ _ rfl rfl (List.Perm.swap _ _ _)⟩

/-- C8: when decoding fails, `validate` answers with status 400 and the text
"Invalid request", logs the decoding error and nothing of the blacklist scan,
and writes no verdict; a verdict is in the response only when decoding
succeeded. -/
theorem validate_rejects_undecodable (jsonDecode : List UInt8 → Except String ImageReview)
    (r : Request) :
    (∀ err, jsonDecode r.Body = .error err →
      validate jsonDecode r =
        ({ statusCode := 400, contentType := "text/plain; charset=utf-8",
           body := .text "Invalid request\n" },
         ["Received image policy webhook request from " ++ r.RemoteAddr,
          "Error decoding request: " ++ err]) ∧
      (validate jsonDecode r).1.verdict = none) ∧
    (∀ v, (validate jsonDecode r).1.verdict = some v →
      ∃ review, jsonDecode r.Body = .ok review) := by
  constructor
  · intro err he
    have hv : validate jsonDecode r =
        ({ statusCode := 400, contentType := "text/plain; charset=utf-8",
           body := .text "Invalid request\n" },
         ["Received image policy webhook request from " ++ r.RemoteAddr,
          "Error decoding request: " ++ err]) := by
      simp only [validate, he, http.Error]
      rfl
    exact ⟨hv, by rw [hv]; rfl⟩
  · intro v hv
    cases he : jsonDecode r.Body with
    | ok review => exact ⟨review, rfl⟩
    | error err =>
      simp only [validate, he, http.Error, Response.verdict] at hv
      exact absurd hv (by simp)

/-- C8, on a body the decoder rejects. -/
theorem validate_rejects_undecodable_witness :
    decodeFail sampleRequest.Body = .error "unexpected end of JSON input" ∧
      validate decodeFail sampleRequest =
        ({ statusCode := 400, contentType := "text/plain; charset=utf-8",
           body := .text "Invalid request\n" },
         ["Received image policy webhook request from " ++ sampleRequest.RemoteAddr,
          "Error decoding request: " ++ "unexpected end of JSON input"]) ∧
      (validate decodeFail sampleRequest).1.verdict = none :=
  ⟨rfl, (validate_rejects_undecodable decodeFail sampleRequest).1 _ rfl⟩

/-- C9: an empty image contains no blacklist token; two decoded requests with
the same incoming status whose container lists agree once the containers with
image "" are dropped receive the same verdict, `allowed` and reason alike; and
a request all of whose containers have an empty image is allowed. -/
theorem validate_ignores_empty_images (jsonDecode : List UInt8 → Except String ImageReview)
    (r1 r2 : Request) (review1 review2 : ImageReview)
    (hd1 : jsonDecode r1.Body = .ok review1) (hd2 : jsonDecode r2.Body = .ok review2)
    (hst : review1.Status = review2.Status)
    (hcs : (review1.Spec.Containers.filter fun c => c.Image != "")
      = review2.Spec.Containers.filter fun c => c.Image != "") :
    (∀ t ∈ ["nginx:1.19", "nginx:1.18", "ubuntu:18.04"], strings.Contains "" t = false) ∧
      ¬ Blacklisted "" ∧
      (∃ v, (validate jsonDecode r1).1.verdict = some v ∧
        (validate jsonDecode r2).1.verdict = some v) ∧
      ((∀ c ∈ review1.Spec.Containers, c.Image = "") →
        ∃ v, (validate jsonDecode r1).1.verdict = some v ∧ v.Allowed = true) := by
  refine ⟨by decide, ?_, ?_, ?_⟩
  · intro hb
    have := (hit_iff ⟨""⟩).mpr hb
    rw [hit_empty ⟨""⟩ rfl] at this
    exact absurd this (by decide)
  · refine ⟨_, verdict_ok jsonDecode r1 review1 hd1, ?_⟩
    rw [verdict_ok jsonDecode r2 review2 hd2, verdictReview_status, verdictReview_status,
      ← find_hit_filter review1.Spec.Containers, ← find_hit_filter review2.Spec.Containers,
      hcs, hst]
  · intro hall
    refine ⟨_, verdict_ok jsonDecode r1 review1 hd1, ?_⟩
    cases hA : (verdictReview review1).Status.Allowed with
    | true => rfl
    | false =>
      obtain ⟨c, hc, hb⟩ := (verdictReview_allowed review1).mp hA
      have := (hit_iff c).mpr hb
      rw [hit_empty c (hall c hc)] at this
      exact absurd this (by decide)

/-- C9, on the containers "", "nginx:1.18", "" against "nginx:1.18" alone. -/
theorem validate_ignores_empty_images_witness :
    decodeTable [reviewOf ["", "nginx:1.18", ""], reviewOf ["nginx:1.18"]] (requestNo 0).Body
        = .ok (reviewOf ["", "nginx:1.18", ""]) ∧
      decodeTable [reviewOf ["", "nginx:1.18", ""], reviewOf ["nginx:1.18"]] (requestNo 1).Body
        = .ok (reviewOf ["nginx:1.18"]) ∧
      (reviewOf ["", "nginx:1.18", ""]).Status = (reviewOf ["nginx:1.18"]).Status ∧
      ((reviewOf ["", "nginx:1.18", ""]).Spec.Containers.filter fun c => c.Image != "")
        = ((reviewOf ["nginx:1.18"]).Spec.Containers.filter fun c => c.Image != "") ∧
      (∀ t ∈ ["nginx:1.19", "nginx:1.18", "ubuntu:18.04"], strings.Contains "" t = false) ∧
      ¬ Blacklisted "" ∧
      (∃ v, (validate (decodeTable [reviewOf ["", "nginx:1.18", ""], reviewOf ["nginx:1.18"]])
          (requestNo 0)).1.verdict = some v ∧
        (validate (decodeTable [reviewOf ["", "nginx:1.18", ""], reviewOf ["nginx:1.18"]])
          (requestNo 1)).1.verdict = some v) ∧
      ((∀ c ∈ (reviewOf ["", "nginx:1.18", ""]).Spec.Containers, c.Image = "") →
        ∃ v, (validate (decodeTable [reviewOf ["", "nginx:1.18", ""], reviewOf ["nginx:1.18"]])
          (requestNo 0)).1.verdict = some v ∧ v.Allowed = true) :=
  ⟨rfl, rfl, rfl, by decide,
    validate_ignores_empty_images
      (decodeTable [reviewOf ["", "nginx:1.18", ""], reviewOf ["nginx:1.18"]])
      (requestNo 0) (requestNo 1) _ _ rfl rfl rfl (by decide)⟩

/-- C10: two decoded requests with the same `spec.containers` receive the
same value of `allowed`, whatever `status` each of them carried on arrival. -/
theorem validate_allowed_ignores_incoming_status
    (jsonDecode : List UInt8 → Except String ImageReview)
    (r1 r2 : Request) (review1 review2 : ImageReview)
    (hd1 : jsonDecode r1.Body = .ok review1) (hd2 : jsonDecode r2.Body = .ok review2)
    (hcs : review1.Spec.Containers = review2.Spec.Containers) :
    ∃ v1 v2, (validate jsonDecode r1).1.verdict = some v1 ∧
      (validate jsonDecode r2).1.verdict = some v2 ∧ v1.Allowed = v2.Allowed :=
  ⟨_, _, verdict_ok jsonDecode r1 review1 hd1, verdict_ok jsonDecode r2 review2 hd2,
    verdictReview_allowed_congr review1 review2 fun _ => by rw [hcs]⟩

/-- C10, on the container "nginx:1.19" sent once with an empty status and once
with `allowed = true` already set: both are denied. -/
theorem validate_allowed_ignores_incoming_status_witness :
    decodeTable [reviewOf ["nginx:1.19"], reviewWithStatus ["nginx:1.19"] true "ok"]
        (requestNo 0).Body = .ok (reviewOf ["nginx:1.19"]) ∧
      decodeTable [reviewOf ["nginx:1.19"], reviewWithStatus ["nginx:1.19"] true "ok"]
        (requestNo 1).Body = .ok (reviewWithStatus ["nginx:1.19"] true "ok") ∧
      (reviewOf ["nginx:1.19"]).Spec.Containers
        = (reviewWithStatus ["nginx:1.19"] true "ok").Spec.Containers ∧
      ∃ v1 v2,
        (validate (decodeTable [reviewOf ["nginx:1.19"], reviewWithStatus ["nginx:1.19"] true "ok"])
          (requestNo 0)).1.verdict = some v1 ∧
        (validate (decodeTable [reviewOf ["nginx:1.19"], reviewWithStatus ["nginx:1.19"] true "ok"])
          (requestNo 1)).1.verdict = some v2 ∧ v1.Allowed = v2.Allowed :=
  ⟨rfl, rfl, rfl,
    validate_allowed_ignores_incoming_status
      (decodeTable [reviewOf ["nginx:1.19"], reviewWithStatus ["nginx:1.19"] true "ok"])
      (requestNo 0) (requestNo 1) _ _ rfl rfl rfl⟩

end Webhook
